import Mathlib

/-!
Verification of the Ya.Shad-GoLang-HW repository.

Part 1 models the `ledger` package. Its implementation is not part of the
source tree (only its test file `ledger_test.go` is), so the operations are
modelled from the specification (§4.3 of the design document): a ledger is a
finite relation from account ids to balances, every operation validates its
inputs, applies its mutation atomically, and rolls back (leaves the state
untouched) on every error.

Part 2 embeds `lrucache/lru.go`. The Go code keeps a doubly linked list
`order` (front = most recently used) plus a map `storage` from keys to list
nodes; the map always holds exactly the keys of the list, so the model keeps
the list of (key, value) pairs only.

Part 3 embeds `tabletest/parse_duration.go`. Go int64 arithmetic is modelled
with `Int` plus an explicit wrap at 2^64 (`wrap64`).
-/

deriving instance DecidableEq for Except

namespace ledger

/-- Account identifier (`ledger.ID` in the Go sources, an opaque string). -/
abbrev ID := String

/-- `ledger.Money`: a signed 64-bit quantity of minor currency units. -/
abbrev Money := Int

/-- The error taxonomy of the `ledger` package (names from the test file). -/
inductive Error where
  | ErrAlreadyExists
  | ErrUnknownAccount
  | ErrNegativeAmount
  | ErrNoMoney
deriving DecidableEq

/-- The committed store state: the relation {account_id → balance}. -/
abbrev Accounts := List (ID × Money)

/-- Balance of account `id`, `none` when the account does not exist. -/
def lookupAccount : Accounts → ID → Option Money
  | [], _ => none
  | (k, v) :: rest, id => if k = id then some v else lookupAccount rest id

/-- Apply `g` to the balance of the (unique) row with key `id`, like an SQL
`UPDATE accounts SET balance = g(balance) WHERE account_id = id`. -/
def adjust : Accounts → ID → (Money → Money) → Accounts
  | [], _, _ => []
  | (k, v) :: rest, id, g =>
    if k = id then (k, g v) :: rest else (k, v) :: adjust rest id g

/-- Modelled from the spec: `CreateAccount` (implementation absent from src/).
"opens a transaction, calls `Create`; `AlreadyExists` → `ErrAlreadyExists`;
else commit" — the new row has balance 0. -/
def createAccount (s : Accounts) (id : ID) : Except Error Accounts :=
  match lookupAccount s id with
  | some _ => .error .ErrAlreadyExists
  | none => .ok (s ++ [(id, 0)])

/-- Modelled from the spec: `Deposit` (implementation absent from src/).
"reject `amount ≤ 0` as `ErrNegativeAmount` before opening any transaction.
Else: transaction → `GetForUpdate(id)` (`NotFound` → `ErrUnknownAccount`,
rollback) → balance += amount → `SetBalance` → commit". -/
def deposit (s : Accounts) (id : ID) (amount : Money) : Except Error Accounts :=
  if amount ≤ 0 then .error .ErrNegativeAmount
  else
    match lookupAccount s id with
    | none => .error .ErrUnknownAccount
    | some _ => .ok (adjust s id (fun b => b + amount))

/-- Modelled from the spec: `Withdraw` (implementation absent from src/).
"reject `amount ≤ 0` as `ErrNegativeAmount`. Else: transaction →
`GetForUpdate(id)` (`NotFound` → `ErrUnknownAccount`) → if balance < amount →
`ErrNoMoney`, rollback, no mutation → else balance -= amount → `SetBalance` →
commit". -/
def withdraw (s : Accounts) (id : ID) (amount : Money) : Except Error Accounts :=
  if amount ≤ 0 then .error .ErrNegativeAmount
  else
    match lookupAccount s id with
    | none => .error .ErrUnknownAccount
    | some b =>
      if b < amount then .error .ErrNoMoney
      else .ok (adjust s id (fun x => x - amount))

/-- Modelled from the spec: `Transfer` (implementation absent from src/).
"reject `amount ≤ 0` as `ErrNegativeAmount`. Else: one transaction →
`NotFound` on either → `ErrUnknownAccount`, rollback → if balance(from) <
amount → `ErrNoMoney`, rollback → else debit `from`, credit `to`, both inside
the same transaction → commit". The debit and the credit are row updates in
one transaction, so the credit sees the debited state (spec invariant 2:
a successful Transfer conserves the total). -/
def transfer (s : Accounts) (src dst : ID) (amount : Money) : Except Error Accounts :=
  if amount ≤ 0 then .error .ErrNegativeAmount
  else
    match lookupAccount s src, lookupAccount s dst with
    | some bf, some _ =>
      if bf < amount then .error .ErrNoMoney
      else .ok (adjust (adjust s src (fun x => x - amount)) dst (fun x => x + amount))
    | _, _ => .error .ErrUnknownAccount

/-- Modelled from the spec: `GetBalance` — "unlocked read; `NotFound` →
`ErrUnknownAccount`" (read-committed: it sees only committed states). -/
def getBalance (s : Accounts) (id : ID) : Except Error Money :=
  match lookupAccount s id with
  | some b => .ok b
  | none => .error .ErrUnknownAccount

/-- One mutating ledger call together with its arguments. -/
inductive Op where
  | create (id : ID)
  | deposit (id : ID) (amount : Money)
  | withdraw (id : ID) (amount : Money)
  | transfer (src dst : ID) (amount : Money)
deriving DecidableEq

/-- Execute one call, returning the committed state or the business error. -/
def applyOp (s : Accounts) : Op → Except Error Accounts
  | .create id => createAccount s id
  | .deposit id a => deposit s id a
  | .withdraw id a => withdraw s id a
  | .transfer src dst a => transfer s src dst a

/-- The committed state after one call: on error the transaction rolls back
and the state is unchanged (spec §4.3 guarantee). -/
def step (s : Accounts) (o : Op) : Accounts :=
  match applyOp s o with
  | .ok t => t
  | .error _ => s

/-- The committed state after a sequence of calls (failed calls roll back). -/
def run (s : Accounts) (ops : List Op) : Accounts := ops.foldl step s

/-- Run a sequence of calls that must all succeed; the first error aborts. -/
def runE (s : Accounts) : List Op → Except Error Accounts
  | [] => .ok s
  | o :: rest =>
    match applyOp s o with
    | .error e => .error e
    | .ok t => runE t rest

/-- Every existing account has a non-negative balance (spec invariant 1). -/
def NonNeg (s : Accounts) : Prop :=
  ∀ id b, lookupAccount s id = some b → 0 ≤ b

/-- Sum of all balances in the store. -/
def total (s : Accounts) : Money := (s.map Prod.snd).sum

/-- Sum of the amounts of the `deposit` calls in a sequence. -/
def sumDeposits : List Op → Money
  | [] => 0
  | Op.deposit _ a :: rest => a + sumDeposits rest
  | _ :: rest => sumDeposits rest

/-- Sum of the amounts of the `withdraw` calls in a sequence. -/
def sumWithdrawals : List Op → Money
  | [] => 0
  | Op.withdraw _ a :: rest => a + sumWithdrawals rest
  | _ :: rest => sumWithdrawals rest

/-- The balance delta a successful call produces on the total. -/
def opDelta : Op → Money
  | .create _ => 0
  | .deposit _ a => a
  | .withdraw _ a => -a
  | .transfer _ _ _ => 0

/-- Modelled from the spec: the ConcurrencyController's lock-acquisition
order for a Transfer touching accounts `a` and `b` (implementation absent
from src/): "exclusive intents on both accounts in a fixed global order —
e.g., lexicographic order of AccountID, independent of logical from/to
direction". -/
def lockOrder (a b : ID) : List ID := if a ≤ b then [a, b] else [b, a]

/-- The locks a Transfer on `(a, b)` holds after acquiring the first `k`
entries of its acquisition list. -/
def heldLocks (a b : ID) (k : Nat) : List ID := (lockOrder a b).take k

/-- The lock a Transfer on `(a, b)` is waiting for after acquiring `k`
locks (`none` once it holds every lock it needs). -/
def waitingFor (a b : ID) (k : Nat) : Option ID := (lockOrder a b).get? k

/-- The exclusivity of intents: no lock is held by both transfers at once. -/
def disjointHolds (a b : ID) (k1 k2 : Nat) : Bool :=
  (heldLocks a b k1).all (fun l => !((heldLocks b a k2).contains l))

/-- A circular wait between a Transfer on `(a, b)` and an opposite-direction
Transfer on `(b, a)`: with exclusively held locks, each one waits for a lock
the other holds. -/
def circularWait (a b : ID) (k1 k2 : Nat) : Bool :=
  disjointHolds a b k1 k2 &&
    (match waitingFor a b k1, waitingFor b a k2 with
     | some l2, some l1 =>
       (heldLocks b a k2).contains l2 && (heldLocks a b k1).contains l1
     | _, _ => false)

end ledger

namespace lrucache

/-- `LRUCache` from `lrucache/lru.go`. The Go struct keeps a linked list
`order` of `CacheItem{key, value}` (front = most recently used) and a map
`storage` whose keys are exactly the keys of `order`; the model keeps the
list, with `capacity` as the signed Go `int`. -/
structure LRUCache where
  capacity : Int
  order : List (Int × Int)
deriving DecidableEq

/-- `New(cap)` — empty cache with the given capacity. -/
def New (cap : Int) : LRUCache := { capacity := cap, order := [] }

/-- Whether `storage` holds `key` (`_, exists := c.storage[key]`). -/
def containsKey : List (Int × Int) → Int → Bool
  | [], _ => false
  | (k, _) :: rest, key => if k = key then true else containsKey rest key

/-- The value stored under `key`, when present. -/
def lookupKey : List (Int × Int) → Int → Option Int
  | [], _ => none
  | (k, v) :: rest, key => if k = key then some v else lookupKey rest key

/-- Remove the (unique) entry with the given key from the order list; used
to model `order.MoveToFront(element)` and `order.Remove(element)`. -/
def eraseKey : List (Int × Int) → Int → List (Int × Int)
  | [], _ => []
  | (k, v) :: rest, key => if k = key then rest else (k, v) :: eraseKey rest key

/-- `LRUCache.Set`: no-op at capacity 0; on a present key overwrite the value
and move the node to the front; otherwise evict the back node when
`order.Len() >= capacity` and push the new item to the front. -/
def LRUCache.Set (c : LRUCache) (key value : Int) : LRUCache :=
  if c.capacity = 0 then c
  else if containsKey c.order key then
    { c with order := (key, value) :: eraseKey c.order key }
  else
    let ord := if c.capacity ≤ (c.order.length : Int) then c.order.dropLast else c.order
    { c with order := (key, value) :: ord }

/-- `LRUCache.Get`: `(0, false)` on a miss; on a hit move the node to the
front and return its value with `true`. -/
def LRUCache.Get (c : LRUCache) (key : Int) : (Int × Bool) × LRUCache :=
  match lookupKey c.order key with
  | none => ((0, false), c)
  | some v => ((v, true), { c with order := (key, v) :: eraseKey c.order key })

/-- `LRUCache.Clear`: fresh storage and `order.Init()`, capacity kept. -/
def LRUCache.Clear (c : LRUCache) : LRUCache := { c with order := [] }

/-- One cache call. -/
inductive CacheOp where
  | set (key value : Int)
  | get (key : Int)
  | clear
deriving DecidableEq

/-- The cache state after one call. -/
def stepCache (c : LRUCache) : CacheOp → LRUCache
  | .set k v => c.Set k v
  | .get k => (c.Get k).2
  | .clear => c.Clear

/-- The cache state after a sequence of calls. -/
def runCache (c : LRUCache) (ops : List CacheOp) : LRUCache :=
  ops.foldl stepCache c

/-- The capacity invariant: non-negative capacity and no more entries than
the capacity allows. -/
def CapInv (c : LRUCache) : Prop :=
  0 ≤ c.capacity ∧ (c.order.length : Int) ≤ c.capacity

end lrucache

namespace tabletest

/-- `math.MaxInt64`, the bound `1<<63 - 1` used by the overflow checks. -/
def int64Max : Int := 9223372036854775807

/-- Two's-complement wrap of an integer into the int64 range, the effect of
Go's int64 addition/multiplication/negation when the true result is out of
range. -/
def wrap64 (x : Int) : Int :=
  (x + 9223372036854775808) % 18446744073709551616 - 9223372036854775808

/-- Loop body of `leadingInt` from `tabletest/parse_duration.go`: consume the
leading `[0-9]*` of `s` into the int64 accumulator `x`, failing
(`errLeadingInt`) when the accumulator would overflow. -/
def leadingIntAux : List Char → Int → Except Unit (Int × List Char)
  | [], x => .ok (x, [])
  | c :: rest, x =>
    if c < '0' ∨ '9' < c then .ok (x, c :: rest)
    else if x > int64Max / 10 then .error ()
    else
      let x2 := wrap64 (x * 10 + ((c.toNat : Int) - 48))
      if x2 < 0 then .error ()
      else leadingIntAux rest x2

/-- `leadingInt(s)`. -/
def leadingInt (s : List Char) : Except Unit (Int × List Char) :=
  leadingIntAux s 0

/-- Loop body of `leadingFraction`: consume leading digits into `x`, scaling
`scale` by 10 per accepted digit, silently dropping digits once the
accumulator would overflow. The Go `scale` is a float64, exact here because
it never exceeds 10^19. -/
def leadingFractionAux : List Char → Int → Int → Bool → Int × Int × List Char
  | [], x, scale, _ => (x, scale, [])
  | c :: rest, x, scale, overflow =>
    if c < '0' ∨ '9' < c then (x, scale, c :: rest)
    else if overflow then leadingFractionAux rest x scale overflow
    else if x > int64Max / 10 then leadingFractionAux rest x scale true
    else
      let y := wrap64 (x * 10 + ((c.toNat : Int) - 48))
      if y < 0 then leadingFractionAux rest x scale true
      else leadingFractionAux rest y (scale * 10) false

/-- `leadingFraction(s)`. -/
def leadingFraction (s : List Char) : Int × Int × List Char :=
  leadingFractionAux s 0 1 false

/-- `unitMap`: nanoseconds per unit (`time.Nanosecond` … `time.Hour`). -/
def unitMap : List (List Char × Int) :=
  [(['n', 's'], 1), (['u', 's'], 1000), (['µ', 's'], 1000), (['μ', 's'], 1000),
   (['m', 's'], 1000000), (['s'], 1000000000), (['m'], 60000000000),
   (['h'], 3600000000000)]

/-- Go map lookup over `unitMap`. -/
def lookupUnit : List (List Char × Int) → List Char → Option Int
  | [], _ => none
  | (k, v) :: rest, u => if k = u then some v else lookupUnit rest u

/-- `parseNumber(s, orig)`: the integer part `v`, fractional digits `f` with
their scale, and the rest of the string. The Go code indexes `s[0]`, so it is
only ever called on a non-empty string; the empty case is unreachable and
mapped to an error. -/
def parseNumber (s : List Char) : Except Unit (Int × Int × Int × List Char) :=
  match s with
  | [] => .error ()
  | c :: _ =>
    if c ≠ '.' ∧ (c < '0' ∨ '9' < c) then .error ()
    else
      match leadingInt s with
      | .error _ => .error ()
      | .ok (v, s1) =>
        let pre := s1.length ≠ s.length
        match s1 with
        | '.' :: s2 =>
          let (f, scale, s3) := leadingFraction s2
          let post := s3.length ≠ s2.length
          if ¬pre ∧ ¬post then .error () else .ok (v, f, scale, s3)
        | _ => if ¬pre then .error () else .ok (v, 0, 1, s1)

/-- The unit-name scan of `parseUnit`: split `s` at the first `.` or digit. -/
def takeUnit : List Char → List Char × List Char
  | [] => ([], [])
  | c :: rest =>
    if c = '.' ∨ ('0' ≤ c ∧ c ≤ '9') then ([], c :: rest)
    else
      let (u, r) := takeUnit rest
      (c :: u, r)

/-- `parseUnit(s, orig)`: the nanoseconds-per-unit factor and the rest. -/
def parseUnit (s : List Char) : Except Unit (Int × List Char) :=
  let (u, rest) := takeUnit s
  if u = [] then .error ()
  else
    match lookupUnit unitMap u with
    | some unit => .ok (unit, rest)
    | none => .error ()

/-- `computeValue(v, f, scale, unit, orig)`: scale the parsed number by its
unit with overflow checks. The Go fractional term
`int64(float64(f) * (float64(unit)/scale))` is modelled by the exact value
`f * unit / scale` (the float64 rounding error never changes the sign or
overflow behaviour: `f < scale`, so the term is below `unit ≤ 3.6e12`). -/
def computeValue (v f scale unit : Int) : Except Unit Int :=
  if v > int64Max / unit then .error ()
  else
    let v1 := wrap64 (v * unit)
    if f > 0 then
      let v2 := wrap64 (v1 + f * unit / scale)
      if v2 < 0 then .error () else .ok v2
    else .ok v1

/-- The `for s != ""` loop of `ParseDuration`, accumulating into the int64
total `d`. `fuel` bounds the iteration count; every successful iteration
consumes at least one character of `s`, so `s.length + 1` fuel never runs
out. -/
def parseLoop : Nat → List Char → Int → Except Unit Int
  | _, [], d => .ok d
  | 0, _ :: _, _ => .error ()
  | fuel + 1, c :: rest, d =>
    match parseNumber (c :: rest) with
    | .error _ => .error ()
    | .ok (v, f, scale, s1) =>
      match parseUnit s1 with
      | .error _ => .error ()
      | .ok (unit, rem) =>
        match computeValue v f scale unit with
        | .error _ => .error ()
        | .ok value =>
          let d2 := wrap64 (d + value)
          if d2 < 0 then .error () else parseLoop fuel rem d2

/-- The body of `ParseDuration` after the sign has been consumed: the special
`"0"` case, the empty-string error, the loop, and the final negation. -/
def parseAfterSign (neg : Bool) (s : List Char) : Except Unit Int :=
  if s = ['0'] then .ok 0
  else if s = [] then .error ()
  else
    match parseLoop (s.length + 1) s 0 with
    | .error e => .error e
    | .ok d => .ok (if neg then wrap64 (-d) else d)

/-- `ParseDuration(s)` over the characters of `s`; the result is the signed
int64 nanosecond count (`time.Duration`). The leading `[-+]?` is consumed
first, with `neg` recording a leading minus. -/
def ParseDuration (s : List Char) : Except Unit Int :=
  match s with
  | [] => parseAfterSign false []
  | c :: rest =>
    if c = '-' then parseAfterSign true rest
    else if c = '+' then parseAfterSign false rest
    else parseAfterSign false (c :: rest)

/-- Whether the input begins with `'-'`. -/
def startsWithMinus : List Char → Bool
  | [] => false
  | c :: _ => c == '-'

end tabletest

namespace ledger

theorem lookupAccount_adjust (s : Accounts) (id id' : ID) (g : Money → Money) :
    lookupAccount (adjust s id g) id' =
      if id' = id then (lookupAccount s id).map g else lookupAccount s id' := by
  induction s with
  | nil => simp [adjust, lookupAccount]
  | cons p rest ih =>
    obtain ⟨k, v⟩ := p
    by_cases hk : k = id <;> by_cases h1 : id' = id <;> by_cases h2 : k = id' <;>
      simp_all [adjust, lookupAccount]

theorem lookupAccount_append_of_some (s l : Accounts) (id' : ID) (b : Money)
    (h : lookupAccount s id' = some b) : lookupAccount (s ++ l) id' = some b := by
  induction s with
  | nil => simp [lookupAccount] at h
  | cons p rest ih =>
    obtain ⟨k, v⟩ := p
    by_cases h2 : k = id' <;> simp_all [lookupAccount]

theorem lookupAccount_append_of_none (s l : Accounts) (id' : ID)
    (h : lookupAccount s id' = none) :
    lookupAccount (s ++ l) id' = lookupAccount l id' := by
  induction s with
  | nil => simp [lookupAccount]
  | cons p rest ih =>
    obtain ⟨k, v⟩ := p
    by_cases h2 : k = id' <;> simp_all [lookupAccount]

theorem total_cons (k : ID) (b : Money) (rest : Accounts) :
    total ((k, b) :: rest) = b + total rest := by
  simp [total]

theorem total_adjust (s : Accounts) (id : ID) (g : Money → Money) (v : Money)
    (h : lookupAccount s id = some v) :
    total (adjust s id g) = total s + (g v - v) := by
  induction s with
  | nil => simp [lookupAccount] at h
  | cons p rest ih =>
    obtain ⟨k, b⟩ := p
    by_cases hk : k = id
    · rw [lookupAccount, if_pos hk] at h
      obtain rfl : b = v := Option.some.inj h
      rw [adjust, if_pos hk, total_cons, total_cons]
      ring
    · rw [lookupAccount, if_neg hk] at h
      rw [adjust, if_neg hk, total_cons, total_cons, ih h]
      ring

theorem total_append (s : Accounts) (id : ID) :
    total (s ++ [(id, (0 : Money))]) = total s := by
  simp [total]

theorem applyOp_nonneg (s t : Accounts) (o : Op) (hs : NonNeg s)
    (h : applyOp s o = .ok t) : NonNeg t := by
  cases o with
  | create id =>
    simp only [applyOp, createAccount] at h
    cases hc : lookupAccount s id with
    | some b => simp [hc] at h
    | none =>
      simp only [hc] at h
      obtain rfl := Except.ok.inj h
      intro id' b hb
      cases hl : lookupAccount s id' with
      | some b0 =>
        rw [lookupAccount_append_of_some s _ id' b0 hl] at hb
        obtain rfl : b0 = b := Option.some.inj hb
        exact hs id' b0 hl
      | none =>
        rw [lookupAccount_append_of_none s _ id' hl] at hb
        by_cases hid : id = id'
        · rw [lookupAccount, if_pos hid] at hb
          obtain rfl : (0 : Money) = b := Option.some.inj hb
          exact le_refl 0
        · rw [lookupAccount, if_neg hid] at hb
          exact absurd hb (by simp [lookupAccount])
  | deposit id a =>
    simp only [applyOp, deposit] at h
    by_cases ha : a ≤ 0
    · simp [ha] at h
    · rw [if_neg ha] at h
      cases hc : lookupAccount s id with
      | none => simp [hc] at h
      | some b0 =>
        simp only [hc] at h
        obtain rfl := Except.ok.inj h
        intro id' b hb
        rw [lookupAccount_adjust] at hb
        by_cases hid : id' = id
        · rw [if_pos hid, hc] at hb
          simp only [Option.map_some'] at hb
          obtain rfl : b0 + a = b := Option.some.inj hb
          have hb0 := hs id b0 hc
          linarith
        · rw [if_neg hid] at hb
          exact hs id' b hb
  | withdraw id a =>
    simp only [applyOp, withdraw] at h
    by_cases ha : a ≤ 0
    · simp [ha] at h
    · rw [if_neg ha] at h
      cases hc : lookupAccount s id with
      | none => simp [hc] at h
      | some b0 =>
        simp only [hc] at h
        by_cases hlt : b0 < a
        · simp [hlt] at h
        · rw [if_neg hlt] at h
          obtain rfl := Except.ok.inj h
          intro id' b hb
          rw [lookupAccount_adjust] at hb
          by_cases hid : id' = id
          · rw [if_pos hid, hc] at hb
            simp only [Option.map_some'] at hb
            obtain rfl : b0 - a = b := Option.some.inj hb
            linarith
          · rw [if_neg hid] at hb
            exact hs id' b hb
  | transfer src dst a =>
    simp only [applyOp, transfer] at h
    by_cases ha : a ≤ 0
    · simp [ha] at h
    · rw [if_neg ha] at h
      cases hf : lookupAccount s src with
      | none => simp [hf] at h
      | some bf =>
        cases hd : lookupAccount s dst with
        | none => simp [hf, hd] at h
        | some bt =>
          simp only [hf, hd] at h
          by_cases hlt : bf < a
          · simp [hlt] at h
          · rw [if_neg hlt] at h
            obtain rfl := Except.ok.inj h
            intro id' b hb
            rw [lookupAccount_adjust] at hb
            by_cases hid : id' = dst
            · rw [if_pos hid, lookupAccount_adjust] at hb
              by_cases hds : dst = src
              · rw [if_pos hds, hf] at hb
                simp only [Option.map_some'] at hb
                obtain rfl : bf - a + a = b := Option.some.inj hb
                have hbf := hs src bf hf
                linarith
              · rw [if_neg hds, hd] at hb
                simp only [Option.map_some'] at hb
                obtain rfl : bt + a = b := Option.some.inj hb
                have hbt := hs dst bt hd
                linarith
            · rw [if_neg hid, lookupAccount_adjust] at hb
              by_cases his : id' = src
              · rw [if_pos his, hf] at hb
                simp only [Option.map_some'] at hb
                obtain rfl : bf - a = b := Option.some.inj hb
                linarith
              · rw [if_neg his] at hb
                exact hs id' b hb

theorem step_nonneg (s : Accounts) (o : Op) (hs : NonNeg s) : NonNeg (step s o) := by
  unfold step
  cases h : applyOp s o with
  | ok t => exact applyOp_nonneg s t o hs h
  | error e => exact hs

theorem run_nonneg (s : Accounts) (ops : List Op) (hs : NonNeg s) :
    NonNeg (run s ops) := by
  induction ops generalizing s with
  | nil => exact hs
  | cons o rest ih => exact ih (step s o) (step_nonneg s o hs)

theorem applyOp_total (s t : Accounts) (o : Op) (h : applyOp s o = .ok t) :
    total t = total s + opDelta o := by
  cases o with
  | create id =>
    simp only [applyOp, createAccount] at h
    cases hc : lookupAccount s id with
    | some b => simp [hc] at h
    | none =>
      simp only [hc] at h
      obtain rfl := Except.ok.inj h
      simp [total_append, opDelta]
  | deposit id a =>
    simp only [applyOp, deposit] at h
    by_cases ha : a ≤ 0
    · simp [ha] at h
    · rw [if_neg ha] at h
      cases hc : lookupAccount s id with
      | none => simp [hc] at h
      | some b0 =>
        simp only [hc] at h
        obtain rfl := Except.ok.inj h
        rw [total_adjust s id _ b0 hc]
        simp [opDelta]
  | withdraw id a =>
    simp only [applyOp, withdraw] at h
    by_cases ha : a ≤ 0
    · simp [ha] at h
    · rw [if_neg ha] at h
      cases hc : lookupAccount s id with
      | none => simp [hc] at h
      | some b0 =>
        simp only [hc] at h
        by_cases hlt : b0 < a
        · simp [hlt] at h
        · rw [if_neg hlt] at h
          obtain rfl := Except.ok.inj h
          rw [total_adjust s id _ b0 hc]
          simp [opDelta]
  | transfer src dst a =>
    simp only [applyOp, transfer] at h
    by_cases ha : a ≤ 0
    · simp [ha] at h
    · rw [if_neg ha] at h
      cases hf : lookupAccount s src with
      | none => simp [hf] at h
      | some bf =>
        cases hd : lookupAccount s dst with
        | none => simp [hf, hd] at h
        | some bt =>
          simp only [hf, hd] at h
          by_cases hlt : bf < a
          · simp [hlt] at h
          · rw [if_neg hlt] at h
            obtain rfl := Except.ok.inj h
            by_cases hds : dst = src
            · subst hds
              have h1 : lookupAccount (adjust s dst (fun x => x - a)) dst =
                  some (bf - a) := by
                rw [lookupAccount_adjust, if_pos rfl, hf]
                rfl
              rw [total_adjust _ dst _ (bf - a) h1, total_adjust s dst _ bf hf]
              simp [opDelta]
            · have h1 : lookupAccount (adjust s src (fun x => x - a)) dst =
                  some bt := by
                rw [lookupAccount_adjust, if_neg hds, hd]
              rw [total_adjust _ dst _ bt h1, total_adjust s src _ bf hf]
              simp [opDelta]

theorem runE_total (s : Accounts) (ops : List Op) (t : Accounts)
    (h : runE s ops = .ok t) :
    total t = total s + sumDeposits ops - sumWithdrawals ops := by
  induction ops generalizing s with
  | nil =>
    simp only [runE] at h
    obtain rfl := Except.ok.inj h
    simp [sumDeposits, sumWithdrawals]
  | cons o rest ih =>
    simp only [runE] at h
    cases ho : applyOp s o with
    | error e => rw [ho] at h; simp at h
    | ok s1 =>
      rw [ho] at h
      have hrest := ih s1 h
      have hone := applyOp_total s s1 o ho
      cases o <;>
        simp [sumDeposits, sumWithdrawals, opDelta] at hone hrest ⊢ <;>
        linarith

/-- C1: Non-negativity invariant — in every committed state reachable by a
sequence of CreateAccount/Deposit/Withdraw/Transfer calls from a state with
only non-negative balances, every existing account's balance is ≥ 0, and no
GetBalance call returns a negative value. (A concurrent execution commits
some linearization of the calls, i.e. some such sequence.) -/
theorem claim_nonneg_invariant (s0 : Accounts) (h0 : NonNeg s0) (ops : List Op) :
    NonNeg (run s0 ops) ∧
      ∀ id b, getBalance (run s0 ops) id = .ok b → 0 ≤ b := by
  refine ⟨run_nonneg s0 ops h0, ?_⟩
  intro id b hb
  have hinv := run_nonneg s0 ops h0
  unfold getBalance at hb
  cases hl : lookupAccount (run s0 ops) id with
  | none => rw [hl] at hb; simp at hb
  | some b0 =>
    rw [hl] at hb
    simp only at hb
    obtain rfl : b0 = b := Except.ok.inj hb
    exact hinv id b0 hl

/-- Witness for C1 at the concrete history create "a0"; deposit "a0" 5. -/
theorem claim_nonneg_invariant_witness :
    NonNeg (run [] [Op.create "a0", Op.deposit "a0" 5]) ∧ (0 : Money) ≤ 5 :=
  ⟨(claim_nonneg_invariant [] (fun id b h => by simp [lookupAccount] at h)
      [Op.create "a0", Op.deposit "a0" 5]).1,
   (claim_nonneg_invariant [] (fun id b h => by simp [lookupAccount] at h)
      [Op.create "a0", Op.deposit "a0" 5]).2 "a0" 5 (by decide)⟩

/-- C2: Atomicity on failure — every operation that returns an error leaves
the committed state, and hence every account's balance, exactly as before
the call. -/
theorem claim_error_atomicity (s : Accounts) (o : Op) (e : Error)
    (h : applyOp s o = .error e) :
    step s o = s ∧ ∀ id, getBalance (step s o) id = getBalance s id := by
  have hstep : step s o = s := by unfold step; rw [h]
  exact ⟨hstep, fun id => by rw [hstep]⟩

/-- Witness for C2: a Transfer to a nonexistent account rolls back. -/
theorem claim_error_atomicity_witness :
    step [("b0", (100 : Money))] (Op.transfer "b0" "b999" 50) =
      [("b0", (100 : Money))] :=
  (claim_error_atomicity [("b0", 100)] (Op.transfer "b0" "b999" 50)
    .ErrUnknownAccount (by decide)).1

/-- C3: Conservation — a sequence of successful calls changes the total
balance by the sum of the deposited amounts minus the sum of the withdrawn
amounts; a successful Transfer leaves the total unchanged. -/
theorem claim_conservation :
    (∀ (s : Accounts) (ops : List Op) (t : Accounts), runE s ops = .ok t →
      total t = total s + sumDeposits ops - sumWithdrawals ops)
    ∧ (∀ (s t : Accounts) (src dst : ID) (a : Money),
      transfer s src dst a = .ok t → total t = total s) := by
  refine ⟨runE_total, ?_⟩
  intro s t src dst a h
  have := applyOp_total s t (Op.transfer src dst a) h
  simpa [opDelta] using this

/-- Witness for C3 at the history deposit 3; withdraw 2 from balance 5. -/
theorem claim_conservation_witness :
    total [("a0", (6 : Money))] =
      total [("a0", (5 : Money))] +
        sumDeposits [Op.deposit "a0" 3, Op.withdraw "a0" 2] -
        sumWithdrawals [Op.deposit "a0" 3, Op.withdraw "a0" 2] :=
  claim_conservation.1 [("a0", 5)] [Op.deposit "a0" 3, Op.withdraw "a0" 2]
    [("a0", 6)] (by decide)

/-- C4: Withdraw semantics — on an existing account and a positive amount,
Withdraw fails with ErrNoMoney and mutates nothing when the balance is below
the amount, and otherwise succeeds, decreasing the balance by exactly the
amount. -/
theorem claim_withdraw_semantics (s : Accounts) (id : ID) (b amount : Money)
    (hb : lookupAccount s id = some b) (hpos : 0 < amount) :
    (b < amount →
      withdraw s id amount = .error .ErrNoMoney ∧
        step s (Op.withdraw id amount) = s)
    ∧ (amount ≤ b →
      withdraw s id amount = .ok (adjust s id (fun x => x - amount)) ∧
        getBalance (adjust s id (fun x => x - amount)) id = .ok (b - amount)) := by
  constructor
  · intro hlt
    have he : withdraw s id amount = .error .ErrNoMoney := by
      simp [withdraw, not_le.mpr hpos, hb, hlt]
    exact ⟨he, by simp [step, applyOp, he]⟩
  · intro hle
    refine ⟨by simp [withdraw, not_le.mpr hpos, hb, not_lt.mpr hle], ?_⟩
    unfold getBalance
    rw [lookupAccount_adjust, if_pos rfl, hb]
    rfl

/-- Witness for C4: withdrawing 150 from a balance of 100 is rejected. -/
theorem claim_withdraw_semantics_witness :
    withdraw [("a0", (100 : Money))] "a0" 150 = .error .ErrNoMoney ∧
      step [("a0", (100 : Money))] (Op.withdraw "a0" 150) =
        [("a0", (100 : Money))] :=
  (claim_withdraw_semantics [("a0", 100)] "a0" 100 150 (by decide)
    (by decide)).1 (by decide)

/-- C5: Amount validation — for any amount ≤ 0, Deposit, Withdraw and
Transfer fail with ErrNegativeAmount and no balance changes. -/
theorem claim_negative_amount (s : Accounts) (id src dst : ID)
    (amount : Money) (h : amount ≤ 0) :
    deposit s id amount = .error .ErrNegativeAmount
    ∧ withdraw s id amount = .error .ErrNegativeAmount
    ∧ transfer s src dst amount = .error .ErrNegativeAmount
    ∧ step s (Op.deposit id amount) = s
    ∧ step s (Op.withdraw id amount) = s
    ∧ step s (Op.transfer src dst amount) = s := by
  refine ⟨?_, ?_, ?_, ?_, ?_, ?_⟩ <;>
    simp [deposit, withdraw, transfer, step, applyOp, h]

/-- Witness for C5 at amount -100 (test scenario D). -/
theorem claim_negative_amount_witness :
    deposit [("b0", (100 : Money))] "b0" (-100) = .error .ErrNegativeAmount
    ∧ withdraw [("b0", (100 : Money))] "b0" (-100) = .error .ErrNegativeAmount
    ∧ transfer [("b0", (100 : Money))] "b0" "b999" (-100) =
        .error .ErrNegativeAmount
    ∧ step [("b0", (100 : Money))] (Op.deposit "b0" (-100)) =
        [("b0", (100 : Money))]
    ∧ step [("b0", (100 : Money))] (Op.withdraw "b0" (-100)) =
        [("b0", (100 : Money))]
    ∧ step [("b0", (100 : Money))] (Op.transfer "b0" "b999" (-100)) =
        [("b0", (100 : Money))] :=
  claim_negative_amount [("b0", 100)] "b0" "b0" "b999" (-100) (by decide)

/-- C6 counterexample: the claim quantifies over all existing accounts
`from` and `to`, including `from = to`. A self-transfer of 40 from "a0" with
balance 100 succeeds (100 ≥ 40) yet leaves the balance at 100: it does not
decrease by the amount, so the claim as stated is false at from = to. -/
theorem claim_transfer_post_counterexample :
    transfer [("a0", (100 : Money))] "a0" "a0" 40 = .ok [("a0", (100 : Money))]
      ∧ decide ((100 : Money) = 100 - 40) = false := by decide

/-- C6 (amended with `from ≠ to`): for distinct existing accounts and a
positive amount not above the source balance, Transfer succeeds, decreases
the source balance by exactly the amount and increases the destination
balance by exactly the amount, in one atomic step. -/
theorem claim_transfer_postcondition (s : Accounts) (src dst : ID)
    (bf bt amount : Money) (hne : src ≠ dst)
    (hf : lookupAccount s src = some bf) (ht : lookupAccount s dst = some bt)
    (hpos : 0 < amount) (hle : amount ≤ bf) :
    transfer s src dst amount =
      .ok (adjust (adjust s src (fun x => x - amount)) dst (fun x => x + amount))
    ∧ lookupAccount
        (adjust (adjust s src (fun x => x - amount)) dst (fun x => x + amount))
        src = some (bf - amount)
    ∧ lookupAccount
        (adjust (adjust s src (fun x => x - amount)) dst (fun x => x + amount))
        dst = some (bt + amount) := by
  refine ⟨?_, ?_, ?_⟩
  · simp [transfer, not_le.mpr hpos, hf, ht, not_lt.mpr hle]
  · rw [lookupAccount_adjust, if_neg hne, lookupAccount_adjust, if_pos rfl, hf]
    rfl
  · rw [lookupAccount_adjust, if_pos rfl, lookupAccount_adjust,
      if_neg (fun h => hne h.symm), ht]
    rfl

/-- Witness for the amended C6 at test scenario E's transfer. -/
theorem claim_transfer_postcondition_witness :
    transfer [("a0", (100 : Money)), ("a1", 0)] "a0" "a1" 40 =
      .ok [("a0", (60 : Money)), ("a1", 40)]
    ∧ lookupAccount [("a0", (60 : Money)), ("a1", 40)] "a0" = some 60
    ∧ lookupAccount [("a0", (60 : Money)), ("a1", 40)] "a1" = some 40 :=
  claim_transfer_postcondition [("a0", 100), ("a1", 0)] "a0" "a1" 100 0 40
    (by decide) (by decide) (by decide) (by decide) (by decide)

/-- C7: CreateAccount semantics — on a fresh id it succeeds and the new
account reads balance 0; on an existing id it fails with ErrAlreadyExists
and mutates nothing. -/
theorem claim_create_account (s : Accounts) (id : ID) :
    (lookupAccount s id = none →
      createAccount s id = .ok (s ++ [(id, 0)]) ∧
        getBalance (s ++ [(id, (0 : Money))]) id = .ok 0)
    ∧ (∀ b, lookupAccount s id = some b →
      createAccount s id = .error .ErrAlreadyExists ∧ step s (Op.create id) = s) := by
  constructor
  · intro h
    refine ⟨by simp [createAccount, h], ?_⟩
    unfold getBalance
    rw [lookupAccount_append_of_none s _ id h]
    simp [lookupAccount]
  · intro b h
    exact ⟨by simp [createAccount, h], by simp [step, applyOp, createAccount, h]⟩

/-- Witness for C7: creating "a0" in the empty store (test scenario A). -/
theorem claim_create_account_witness :
    createAccount ([] : Accounts) "a0" = .ok [("a0", 0)] ∧
      getBalance [("a0", (0 : Money))] "a0" = .ok 0 :=
  (claim_create_account [] "a0").1 (by decide)

/-- C8: Deadlock-free lock ordering — the lock-acquisition list of a Transfer
is independent of the from/to direction, and two opposite-direction transfers
on the same account pair, holding exclusive (disjoint) lock sets after
acquiring locks in that order, can never each be waiting for a lock the
other holds. -/
theorem claim_lock_order (a b : ID) (k1 k2 : Nat) :
    lockOrder a b = lockOrder b a ∧ circularWait a b k1 k2 = false := by
  have hsym : lockOrder a b = lockOrder b a := by
    rcases le_total a b with h | h
    · by_cases h' : b ≤ a
      · have hab : a = b := le_antisymm h h'
        subst hab; rfl
      · simp [lockOrder, h, h']
    · by_cases h' : a ≤ b
      · have hab : a = b := le_antisymm h' h
        subst hab; rfl
      · simp [lockOrder, h, h']
  refine ⟨hsym, ?_⟩
  obtain ⟨x, y, hL⟩ : ∃ x y, lockOrder a b = [x, y] := by
    unfold lockOrder
    split
    · exact ⟨a, b, rfl⟩
    · exact ⟨b, a, rfl⟩
  have hL2 : lockOrder b a = [x, y] := by rw [← hsym]; exact hL
  rcases k1 with _ | _ | k1 <;> rcases k2 with _ | _ | k2 <;>
    simp [circularWait, disjointHolds, waitingFor, heldLocks, hL, hL2]

end ledger

namespace lrucache

theorem eraseKey_length (l : List (Int × Int)) (key : Int)
    (h : containsKey l key = true) : (eraseKey l key).length + 1 = l.length := by
  induction l with
  | nil => simp [containsKey] at h
  | cons p rest ih =>
    obtain ⟨k, v⟩ := p
    by_cases hk : k = key
    · simp [eraseKey, hk]
    · simp only [containsKey, if_neg hk] at h
      simp [eraseKey, hk, ih h]

theorem lookupKey_contains (l : List (Int × Int)) (key v : Int)
    (h : lookupKey l key = some v) : containsKey l key = true := by
  induction l with
  | nil => simp [lookupKey] at h
  | cons p rest ih =>
    obtain ⟨k, v'⟩ := p
    by_cases hk : k = key
    · simp [containsKey, hk]
    · simp only [lookupKey, if_neg hk] at h
      simp [containsKey, hk, ih h]

theorem stepCache_capacity (c : LRUCache) (o : CacheOp) :
    (stepCache c o).capacity = c.capacity := by
  cases o with
  | set k v =>
    simp only [stepCache, LRUCache.Set]
    split_ifs <;> rfl
  | get k =>
    simp only [stepCache, LRUCache.Get]
    cases lookupKey c.order k <;> rfl
  | clear => rfl

theorem runCache_capacity (c : LRUCache) (ops : List CacheOp) :
    (runCache c ops).capacity = c.capacity := by
  induction ops generalizing c with
  | nil => rfl
  | cons o rest ih =>
    have hstep : runCache c (o :: rest) = runCache (stepCache c o) rest := rfl
    rw [hstep, ih (stepCache c o), stepCache_capacity]

theorem Set_capinv (c : LRUCache) (key value : Int) (h : CapInv c) :
    CapInv (c.Set key value) := by
  obtain ⟨hcap, hlen⟩ := h
  simp only [LRUCache.Set]
  by_cases h0 : c.capacity = 0
  · rw [if_pos h0]
    exact ⟨hcap, hlen⟩
  · rw [if_neg h0]
    by_cases hc : containsKey c.order key = true
    · rw [if_pos hc]
      have he := eraseKey_length c.order key hc
      refine ⟨hcap, ?_⟩
      simp only [List.length_cons]
      omega
    · rw [if_neg hc]
      refine ⟨hcap, ?_⟩
      by_cases hfull : c.capacity ≤ (c.order.length : Int)
      · have hne : c.order.length ≠ 0 := by
          intro hz
          rw [hz] at hfull
          simp at hfull
          omega
        simp only [if_pos hfull, List.length_cons, List.length_dropLast]
        omega
      · simp only [if_neg hfull, List.length_cons]
        omega

theorem stepCache_capinv (c : LRUCache) (o : CacheOp) (h : CapInv c) :
    CapInv (stepCache c o) := by
  cases o with
  | set k v => exact Set_capinv c k v h
  | get k =>
    obtain ⟨hcap, hlen⟩ := h
    cases hl : lookupKey c.order k with
    | none =>
      simp only [stepCache, LRUCache.Get, hl]
      exact ⟨hcap, hlen⟩
    | some v =>
      have hc := lookupKey_contains c.order k v hl
      have he := eraseKey_length c.order k hc
      simp only [stepCache, LRUCache.Get, hl]
      refine ⟨hcap, ?_⟩
      simp only [List.length_cons]
      omega
  | clear =>
    obtain ⟨hcap, hlen⟩ := h
    refine ⟨hcap, ?_⟩
    simp [stepCache, LRUCache.Clear]
    exact hcap

theorem runCache_capinv (c : LRUCache) (ops : List CacheOp) (h : CapInv c) :
    CapInv (runCache c ops) := by
  induction ops generalizing c with
  | nil => exact h
  | cons o rest ih => exact ih (stepCache c o) (stepCache_capinv c o h)

/-- C9: LRU capacity invariant — for every capacity `cap ≥ 0` and every
sequence of Set/Get/Clear calls on `New cap`, the number of stored keys
never exceeds `cap`; a Set on a capacity-0 cache stores nothing; and a Set
of a fresh key on a full cache evicts the least-recently-used (back) entry
while inserting the new key at the front. -/
theorem claim_lru_capacity :
    (∀ (cap : Int) (ops : List CacheOp), 0 ≤ cap →
      ((runCache (New cap) ops).order.length : Int) ≤ cap)
    ∧ (∀ key value, (New 0).Set key value = New 0)
    ∧ (∀ (c : LRUCache) (key value : Int), 0 < c.capacity →
        (c.order.length : Int) = c.capacity →
        containsKey c.order key = false →
        (c.Set key value).order = (key, value) :: c.order.dropLast) := by
  refine ⟨?_, ?_, ?_⟩
  · intro cap ops hcap
    have h2 := (runCache_capinv (New cap) ops ⟨hcap, by simpa [New] using hcap⟩).2
    rw [runCache_capacity] at h2
    exact h2
  · intro key value
    simp [LRUCache.Set, New]
  · intro c key value hpos hfull hnew
    have h0 : ¬ c.capacity = 0 := by omega
    simp [LRUCache.Set, h0, hnew, le_of_eq hfull.symm]

/-- Witness for C9: a three-Set history on capacity 2, the capacity-0 Set,
and an eviction on a concrete full cache. -/
theorem claim_lru_capacity_witness :
    ((runCache (New 2)
        [CacheOp.set 1 10, CacheOp.set 2 20, CacheOp.set 3 30]).order.length
      : Int) ≤ 2
    ∧ (New 0).Set 5 7 = New 0
    ∧ ((LRUCache.mk 2 [(2, 20), (1, 10)]).Set 3 30).order =
        (3, 30) :: [((2 : Int), (20 : Int)), (1, 10)].dropLast :=
  ⟨claim_lru_capacity.1 2 [CacheOp.set 1 10, CacheOp.set 2 20, CacheOp.set 3 30]
      (by decide),
   claim_lru_capacity.2.1 5 7,
   claim_lru_capacity.2.2 (LRUCache.mk 2 [(2, 20), (1, 10)]) 3 30 (by decide)
      (by decide) (by decide)⟩

end lrucache

namespace tabletest

theorem wrap64_range (x : Int) :
    -9223372036854775808 ≤ wrap64 x ∧ wrap64 x ≤ int64Max := by
  unfold wrap64 int64Max
  omega

theorem parseLoop_nonneg (fuel : Nat) (s : List Char) (d r : Int)
    (hd : 0 ≤ d ∧ d ≤ int64Max) (h : parseLoop fuel s d = .ok r) :
    0 ≤ r ∧ r ≤ int64Max := by
  induction fuel generalizing s d with
  | zero =>
    cases s with
    | nil =>
      simp only [parseLoop] at h
      obtain rfl := Except.ok.inj h
      exact hd
    | cons c rest => simp [parseLoop] at h
  | succ fuel ih =>
    cases s with
    | nil =>
      simp only [parseLoop] at h
      obtain rfl := Except.ok.inj h
      exact hd
    | cons c rest =>
      simp only [parseLoop] at h
      cases hn : parseNumber (c :: rest) with
      | error e => simp [hn] at h
      | ok q =>
        obtain ⟨v, f, scale, s1⟩ := q
        simp only [hn] at h
        cases hu : parseUnit s1 with
        | error e => simp [hu] at h
        | ok p =>
          obtain ⟨unit, rem⟩ := p
          simp only [hu] at h
          cases hv : computeValue v f scale unit with
          | error e => simp [hv] at h
          | ok value =>
            simp only [hv] at h
            by_cases hneg : wrap64 (d + value) < 0
            · rw [if_pos hneg] at h
              simp at h
            · rw [if_neg hneg] at h
              exact ih rem (wrap64 (d + value))
                ⟨not_lt.mp hneg, (wrap64_range _).2⟩ h

theorem parseAfterSign_false_nonneg (s : List Char) (d : Int)
    (h : parseAfterSign false s = .ok d) : 0 ≤ d ∧ d ≤ int64Max := by
  unfold parseAfterSign at h
  by_cases h0 : s = ['0']
  · rw [if_pos h0] at h
    obtain rfl := Except.ok.inj h
    unfold int64Max
    omega
  · rw [if_neg h0] at h
    by_cases he : s = []
    · rw [if_pos he] at h
      simp at h
    · rw [if_neg he] at h
      cases hp : parseLoop (s.length + 1) s 0 with
      | error e => simp [hp] at h
      | ok d0 =>
        simp only [hp, Bool.false_eq_true, if_false] at h
        obtain rfl := Except.ok.inj h
        exact parseLoop_nonneg (s.length + 1) s 0 d0
          ⟨le_refl 0, by unfold int64Max; omega⟩ hp

/-- C10: ParseDuration overflow safety — scaling a parsed component by its
unit is guarded (a successful `computeValue` result lies in [0, 2^63-1]
whenever the parsed integer part is non-negative and the unit positive), and
every accumulation into the running total is checked, so for every input not
beginning with '-', a nil-error result is a non-negative duration within the
int64 range — never a wrapped value. -/
theorem claim_parse_duration_overflow :
    (∀ v f scale unit value, 0 ≤ v → 0 < unit →
      computeValue v f scale unit = .ok value →
        0 ≤ value ∧ value ≤ int64Max)
    ∧ (∀ (s : List Char) (d : Int), startsWithMinus s = false →
      ParseDuration s = .ok d → 0 ≤ d ∧ d ≤ int64Max) := by
  constructor
  · intro v f scale unit value hv hu h
    unfold computeValue at h
    by_cases hg : v > int64Max / unit
    · rw [if_pos hg] at h
      simp at h
    · rw [if_neg hg] at h
      have hmul : v * unit ≤ int64Max := (Int.le_ediv_iff_mul_le hu).mp (not_lt.mp hg)
      have hmul0 : 0 ≤ v * unit := mul_nonneg hv (le_of_lt hu)
      have hw : wrap64 (v * unit) = v * unit := by
        unfold int64Max at hmul
        unfold wrap64
        omega
      by_cases hf : f > 0
      · rw [if_pos hf] at h
        by_cases hneg : wrap64 (wrap64 (v * unit) + f * unit / scale) < 0
        · rw [if_pos hneg] at h
          simp at h
        · rw [if_neg hneg] at h
          obtain rfl := Except.ok.inj h
          exact ⟨not_lt.mp hneg, (wrap64_range _).2⟩
      · rw [if_neg hf] at h
        obtain rfl := Except.ok.inj h
        rw [hw]
        exact ⟨hmul0, hmul⟩
  · intro s d hminus h
    cases s with
    | nil => exact parseAfterSign_false_nonneg [] d h
    | cons c rest =>
      simp only [startsWithMinus] at hminus
      have hc : ¬ c = '-' := by
        intro hcm
        rw [hcm] at hminus
        simp at hminus
      simp only [ParseDuration, if_neg hc] at h
      by_cases hp : c = '+'
      · rw [if_pos hp] at h
        exact parseAfterSign_false_nonneg rest d h
      · rw [if_neg hp] at h
        exact parseAfterSign_false_nonneg (c :: rest) d h

/-- Witness for C10: the guarded scaling of 2s and the parse of "1s". -/
theorem claim_parse_duration_overflow_witness :
    ((0 : Int) ≤ 2000000000 ∧ (2000000000 : Int) ≤ int64Max)
    ∧ ((0 : Int) ≤ 1000000000 ∧ (1000000000 : Int) ≤ int64Max) :=
  ⟨claim_parse_duration_overflow.1 2 0 1 1000000000 2000000000 (by decide)
      (by decide) (by decide),
   claim_parse_duration_overflow.2 ['1', 's'] 1000000000 (by decide) (by decide)⟩

end tabletest
